import Mathlib

/- Verification development for the minikin FontCollection core
   (FontCollection.cpp): coverage-index construction, per-character family
   resolution with its scoring heuristic and fallback chain,
   variation-selector handling, and itemization of a UTF-16 string into
   font runs.

   Conventions of the shallow embedding:
   * Families are identified by a numeric `fid` standing for the C++
     pointer identity of the `FontFamily*`.
   * A family's coverage bitset is the finite set of codepoints `cov`;
     `covLength` and `nextSetBit` model the SparseBitSet operations.
   * External collaborators (language cache, language matching, the ICU
     canonical-decomposition service) are fields of `MinikinEnv`.
   * Fallible C++ results (`FontFamily*` that may be null, a `MinikinFont*`
     that may be null) are `Option` values.
   * `getFamilyForChar` recurses through the fallback chain with explicit
     fuel, since the decomposition service is an arbitrary external map. -/

namespace Minikin

/-- Style data consumed by itemize: the language-list id and the variant,
modelling FontStyle::getLanguageListId and FontStyle::getVariant. -/
structure FontStyle where
  langListId : Nat
  variant : Nat
deriving DecidableEq

/-- A family's declared language tag together with its emoji flag
(FontLanguage::hasEmojiFlag); language identity is external. -/
structure FontLanguage where
  langId : Nat
  emojiFlag : Bool
deriving DecidableEq

/-- Default-constructed FontLanguage, used when the requested language list
is empty. -/
def defaultFontLanguage : FontLanguage := { langId := 0, emojiFlag := false }

/-- A font family as the collection sees it. `fid` is the pointer identity;
`cov` is the coverage bitset as a finite set of codepoints;
`hasCoverageData` models getCoverage() returning a non-null pointer;
`hasVS` models FontFamily::hasVariationSelector (exact variation-sequence
support); `closestMatch` models getClosestMatch(style).font, with `none`
for a null font. -/
structure FontFamily where
  fid : Nat
  cov : List Nat
  hasCoverageData : Bool
  hasVS : Nat → Nat → Bool
  lang : FontLanguage
  variant : Nat
  closestMatch : FontStyle → Option Nat

/-- The external collaborators: FontLanguage::match scoring,
FontLanguageListCache::getById, and the first decoded codepoint of the raw
canonical (NFD) decomposition of a codepoint — `none` models the
normalizer being unavailable, failing, or yielding an empty decomposition. -/
structure MinikinEnv where
  langMatch : FontLanguage → FontLanguage → Nat
  getById : Nat → List FontLanguage
  decomposeFirst : Nat → Option Nat

/-- The not-found sentinel of SparseBitSet::nextSetBit. -/
def kNotFound : Nat := 0xFFFFFFFF

/-- SparseBitSet::length — one past the highest set bit, 0 when empty. -/
def covLength (cov : List Nat) : Nat := cov.foldr (fun x m => max (x + 1) m) 0

/-- SparseBitSet::nextSetBit — the smallest covered codepoint at or after
`fromBit`, or `kNotFound` when there is none. -/
def nextSetBit (cov : List Nat) (fromBit : Nat) : Nat :=
  cov.foldr (fun x m => if fromBit ≤ x then min x m else m) kNotFound

/-- Modelled from the spec: the page-size constant kLogCharsPerPage lives in
the collection's header, which is not among the sources; the spec fixes
pages to a power-of-two size, instantiated here as 2^8 codepoints per
page. -/
def kLogCharsPerPage : Nat := 8

/-- Modelled from the spec: kPageMask, the page-size mask matching
kLogCharsPerPage. -/
def kPageMask : Nat := (1 <<< kLogCharsPerPage) - 1

/-- A page's [start, end) slice of the flattened family vector; `stop`
models the source's `end` field. -/
structure Range where
  start : Nat
  stop : Nat
deriving DecidableEq

/-- The constructed collection: surviving families in priority order, the
max-coverage bound, the flattened family-per-page vector and the per-page
ranges into it. -/
structure FontCollection where
  mFamilies : List FontFamily
  mMaxChar : Nat
  mFamilyVec : List FontFamily
  mRanges : List Range

/-- The default FontStyle used during construction. -/
def defaultStyle : FontStyle := { langListId := 0, variant := 0 }

/-- Families surviving the constructor's filtering: a non-null closest-match
font for the default style and non-null coverage data. -/
def survivors (typefaces : List FontFamily) : List FontFamily :=
  typefaces.filter (fun f => (f.closestMatch defaultStyle).isSome && f.hasCoverageData)

/-- One page of the constructor loop: each family whose tracked next covered
codepoint lies below `bound` (the page's upper boundary) is appended to
this page, and its tracker advances to the next set bit at or after
`bound`. Returns the appended families and the updated trackers. -/
def pageScan (bound : Nat) : List (FontFamily × Nat) → List FontFamily × List (FontFamily × Nat)
  | [] => ([], [])
  | (f, lc) :: rest =>
    let pr := pageScan bound rest
    if lc < bound then (f :: pr.1, (f, nextSetBit f.cov bound) :: pr.2)
    else (pr.1, (f, lc) :: pr.2)

/-- The page loop of the constructor: builds the flattened family-per-page
vector and one [start, end) range per page, starting at page `i` with
`n` pages to go and the running `offset`. -/
def buildRanges : Nat → Nat → Nat → List (FontFamily × Nat) → List FontFamily × List Range
  | 0, _, _, _ => ([], [])
  | n + 1, i, offset, state =>
    let pr := pageScan ((i + 1) <<< kLogCharsPerPage) state
    let rest := buildRanges n (i + 1) (offset + pr.1.length) pr.2
    (pr.1 ++ rest.1, { start := offset, stop := offset + pr.1.length } :: rest.2)

/-- Running maximum of "one past the highest covered codepoint" over the
surviving families. -/
def collectionMaxChar (fams : List FontFamily) : Nat :=
  fams.foldl (fun m f => max m (covLength f.cov)) 0

/-- The page loop of the constructor applied to the surviving families,
starting from each family's first covered codepoint. -/
def collectionPages (fams : List FontFamily) : List FontFamily × List Range :=
  buildRanges ((collectionMaxChar fams + kPageMask) >>> kLogCharsPerPage) 0 0
    (fams.map (fun f => (f, nextSetBit f.cov 0)))

/-- The FontCollection constructor. `none` models the fatal construction
error raised when no family survives filtering. -/
def makeCollection (typefaces : List FontFamily) : Option FontCollection :=
  let fams := survivors typefaces
  if fams.isEmpty then none
  else
    some { mFamilies := fams, mMaxChar := collectionMaxChar fams,
           mFamilyVec := (collectionPages fams).1, mRanges := (collectionPages fams).2 }

/-- `hasVSGlyph` of the resolver loop: a selector was requested and the
family supports the exact (base, selector) variation sequence. -/
def hasVSGlyph (ch vs : Nat) (f : FontFamily) : Bool := vs != 0 && f.hasVS ch vs

/-- The coverage filter of the resolver loop: the family supports the
variation sequence or its coverage bitset contains the base codepoint. -/
def eligibleFamily (ch vs : Nat) (f : FontFamily) : Bool :=
  hasVSGlyph ch vs f || f.cov.contains ch

/-- Pointer comparison `mFamilies[0] == family` of the override rule. -/
def isFirstFamily (c : FontCollection) (f : FontFamily) : Bool :=
  match c.mFamilies.head? with
  | some g => g.fid == f.fid
  | none => false

/-- The override rule's guard: (no selector, or the whole sequence is
supported) and the candidate is the collection's first family. -/
def overrideHit (c : FontCollection) (ch vs : Nat) (f : FontFamily) : Bool :=
  (vs == 0 || hasVSGlyph ch vs f) && isFirstFamily c f

/-- The candidate score of getFamilyForChar: twice the language match, plus
one for a matching (or unset) variant, plus 8 for exact variation-sequence
support, else plus 4 for an emoji-presentation selector on an emoji font or
a text-presentation selector on a non-emoji font. -/
def familyScore (env : MinikinEnv) (lang : FontLanguage) (ch vs variant : Nat)
    (f : FontFamily) : Nat :=
  env.langMatch lang f.lang * 2
    + (if f.variant == 0 || f.variant == variant then 1 else 0)
    + (if hasVSGlyph ch vs f then 8
       else if (vs == 0xFE0F && f.lang.emojiFlag) || (vs == 0xFE0E && !f.lang.emojiFlag) then 4
       else 0)

/-- The candidate list scanned by getFamilyForChar: the codepoint's page
slice of the flattened vector when no selector is requested, the full
family list otherwise. -/
def candidates (c : FontCollection) (ch vs : Nat) : List FontFamily :=
  if vs == 0 then
    let r := c.mRanges.getD (ch >>> kLogCharsPerPage) { start := 0, stop := 0 }
    (c.mFamilyVec.drop r.start).take (r.stop - r.start)
  else c.mFamilies

/-- The scanning loop of getFamilyForChar, carrying bestScore (initially -1)
and bestFamily; the override rule returns its family immediately. -/
def scanFamilies (env : MinikinEnv) (c : FontCollection) (lang : FontLanguage)
    (ch vs variant : Nat) : List FontFamily → Int → Option FontFamily → Option FontFamily
  | [], _, best => best
  | f :: rest, bestScore, best =>
    if eligibleFamily ch vs f then
      if overrideHit c ch vs f then some f
      else if bestScore < (familyScore env lang ch vs variant f : Int) then
        scanFamilies env c lang ch vs variant rest (familyScore env lang ch vs variant f) (some f)
      else scanFamilies env c lang ch vs variant rest bestScore best
    else scanFamilies env c lang ch vs variant rest bestScore best

/-- FontCollection::getFamilyForChar. Returns `none` for a codepoint at or
beyond mMaxChar; otherwise scans the candidates, and on no match falls back
to dropping the selector, then to the first codepoint of the canonical
decomposition, then to the first family. The `fuel` bounds the recursion
through the external decomposition map. -/
def getFamilyForChar : Nat → MinikinEnv → FontCollection → Nat → Nat → Nat → Nat → Option FontFamily
  | 0, _, _, _, _, _, _ => none
  | fuel + 1, env, c, ch, vs, langListId, variant =>
    if c.mMaxChar ≤ ch then none
    else
      match scanFamilies env c ((env.getById langListId).headD defaultFontLanguage)
          ch vs variant (candidates c ch vs) (-1) none with
      | some f => some f
      | none =>
        if vs != 0 then getFamilyForChar fuel env c ch 0 langListId variant
        else if c.mFamilyVec.isEmpty then none
        else
          match env.decomposeFirst ch with
          | some ch2 => getFamilyForChar fuel env c ch2 vs langListId variant
          | none => c.mFamilies.head?

/-- isVariationSelector: U+FE00..U+FE0F or U+E0100..U+E01EF. -/
def isVariationSelector (c : Nat) : Bool :=
  decide ((0xFE00 ≤ c ∧ c ≤ 0xFE0F) ∨ (0xE0100 ≤ c ∧ c ≤ 0xE01EF))

/-- FontCollection::hasVariationSelector: false for a non-selector or a base
at or beyond mMaxChar, otherwise a scan of the full family list. -/
def FontCollection.hasVariationSelector (c : FontCollection)
    (baseCodepoint variationSelector : Nat) : Bool :=
  if !isVariationSelector variationSelector then false
  else if c.mMaxChar ≤ baseCodepoint then false
  else c.mFamilies.any (fun f => f.hasVS baseCodepoint variationSelector)

def NBSP : Nat := 0xa0
def ZWJ : Nat := 0x200c
def ZWNJ : Nat := 0x200d
def KEYCAP : Nat := 0x20e3
def HYPHEN : Nat := 0x2010
def NB_HYPHEN : Nat := 0x2011

/-- The sticky whitelist: characters that keep using the existing font run
instead of re-resolving, when the active family covers them. -/
def stickyWhitelist : List Nat :=
  [0x21, 0x2C, 0x2D, 0x2E, 0x3A, 0x3B, 0x3F, NBSP, ZWJ, ZWNJ, KEYCAP, HYPHEN, NB_HYPHEN]

def isStickyWhitelisted (c : Nat) : Bool := stickyWhitelist.contains c

def u16IsLead (c : Nat) : Bool := decide (0xD800 ≤ c ∧ c ≤ 0xDBFF)

def u16IsTrail (c : Nat) : Bool := decide (0xDC00 ≤ c ∧ c ≤ 0xDFFF)

/-- ICU U16_NEXT: decode one codepoint of a UTF-16 code-unit list at index
`i` (lenient on unpaired surrogates), returning the codepoint and the index
just past it. -/
def u16Next (s : List Nat) (i : Nat) : Nat × Nat :=
  let c := s.getD i 0
  if u16IsLead c && decide (i + 1 < s.length) && u16IsTrail (s.getD (i + 1) 0) then
    (((c - 0xD800) <<< 10) + (s.getD (i + 1) 0 - 0xDC00) + 0x10000, i + 2)
  else (c, i + 1)

/-- ICU U16_LENGTH: UTF-16 code units taken by a codepoint. -/
def u16Length (c : Nat) : Nat := if c ≤ 0xFFFF then 1 else 2

/-- The end-of-string sentinel of itemize. -/
def kEndOfString : Nat := 0xFFFFFFFF

/-- An itemize run: half-open UTF-16 code-unit offsets plus the resolved
font handle (`none` models run->fakedFont.font == NULL); `stop` models the
source's `end` field. -/
structure Run where
  font : Option Nat
  start : Nat
  stop : Nat
deriving DecidableEq

/-- The read-only arguments of the itemize loop. -/
structure ItArgs where
  fuel : Nat
  env : MinikinEnv
  col : FontCollection
  style : FontStyle
  s : List Nat

/-- The mutable state of the itemize loop. `result` keeps the runs
newest-first, so the run currently being built is the head. -/
structure ItState where
  result : List Run
  lastFamily : Option FontFamily
  prevCh : Nat

/-- Pointer identity of a possibly-null family. -/
def optFid (x : Option FontFamily) : Option Nat := x.map FontFamily.fid

/-- `run->end = e` on the run currently being built (the newest run). -/
def setHeadStop : List Run → Nat → List Run
  | [], _ => []
  | r :: rs, e => { r with stop := e } :: rs

/-- The continuation decision of itemize: with an active family, a
sticky-whitelisted character continues while covered, and a variation
selector always continues. -/
def itemizeShouldContinue (st : ItState) (ch : Nat) : Bool :=
  match st.lastFamily with
  | none => false
  | some lf => if isStickyWhitelisted ch then lf.cov.contains ch else isVariationSelector ch

/-- The guard of the keycap-merge workaround: the codepoint is the
combining enclosing keycap, it is not the first codepoint, a family was
resolved and that family's coverage contains the previous codepoint. -/
def keycapCond (family : Option FontFamily) (ch utf16Pos prevCh : Nat) : Bool :=
  ch == KEYCAP && utf16Pos != 0 &&
    (match family with
     | some f => f.cov.contains prevCh
     | none => false)

/-- run->fakedFont: the closest-match font of the resolved family, or a
null font when no family was resolved. -/
def runFont (family : Option FontFamily) (style : FontStyle) : Option Nat :=
  match family with
  | some f => f.closestMatch style
  | none => none

/-- The keycap retraction: pull the just-closed run's end back by `len`
code units, deleting the run entirely if it becomes empty. -/
def retractKeycap (result : List Run) (len : Nat) : List Run :=
  match result with
  | [] => []
  | r :: rs => if r.start == r.stop - len then rs else { r with stop := r.stop - len } :: rs

/-- The resolving branch of the itemize loop body: resolve a family for
`ch` (passing the lookahead as selector when it is one) and, at the first
codepoint or on a family change, open a new run — applying the keycap-merge
workaround that re-attaches the previous character to the keycap's run. -/
def itemizeResolve (L : ItArgs) (ch nextCh utf16Pos : Nat) (st : ItState) : ItState :=
  let vs := if isVariationSelector nextCh then nextCh else 0
  let family := getFamilyForChar L.fuel L.env L.col ch vs L.style.langListId L.style.variant
  if utf16Pos == 0 || optFid family != optFid st.lastFamily then
    let len := u16Length st.prevCh
    if keycapCond family ch utf16Pos st.prevCh then
      { result := { font := runFont family L.style, start := utf16Pos - len, stop := 0 } ::
          retractKeycap st.result len,
        lastFamily := family, prevCh := st.prevCh }
    else
      { result := { font := runFont family L.style, start := utf16Pos, stop := 0 } :: st.result,
        lastFamily := family, prevCh := st.prevCh }
  else st

/-- One iteration of the itemize loop for codepoint `ch` at
[utf16Pos, nextUtf16Pos): continue or resolve, record prevCh, and extend
the current run's end to nextUtf16Pos. -/
def itemizeBody (L : ItArgs) (ch nextCh utf16Pos nextUtf16Pos : Nat) (st : ItState) : ItState :=
  let st1 := if itemizeShouldContinue st ch then st else itemizeResolve L ch nextCh utf16Pos st
  { st1 with prevCh := ch, result := setHeadStop st1.result nextUtf16Pos }

/-- Position of the decoder strictly advances. -/
theorem u16Next_snd_gt (s : List Nat) (i : Nat) : i < (u16Next s i).2 := by
  unfold u16Next
  dsimp only
  split <;> omega

/-- The itemize do-while loop: `ch` is the current codepoint decoded at
[utf16Pos, readLength); decode the lookahead, run the body, and continue
until the sentinel follows the last real codepoint. Recursion is structural
on `gas`; since the read position strictly advances, a gas of the string
length (as supplied by itemize) never runs out. -/
def itemizeLoop (L : ItArgs) : Nat → Nat → Nat → Nat → ItState → List Run
  | 0, _, _, _, st => st.result
  | gas + 1, ch, utf16Pos, readLength, st =>
    if readLength < L.s.length then
      let nx := u16Next L.s readLength
      itemizeLoop L gas nx.1 readLength nx.2 (itemizeBody L ch nx.1 utf16Pos readLength st)
    else
      (itemizeBody L ch kEndOfString utf16Pos readLength st).result

/-- FontCollection::itemize on a UTF-16 code-unit list; returns the runs in
left-to-right order. Empty input yields no runs. -/
def itemize (fuel : Nat) (env : MinikinEnv) (c : FontCollection) (s : List Nat)
    (style : FontStyle) : List Run :=
  if s.length = 0 then []
  else
    let nx := u16Next s 0
    (itemizeLoop { fuel := fuel, env := env, col := c, style := style, s := s }
      s.length nx.1 0 nx.2 { result := [], lastFamily := none, prevCh := 0 }).reverse

/-- Forward well-formedness of a run list: the first run starts at `a`,
consecutive runs are contiguous with non-negative extent, and the last run
ends at `b`. -/
def chainF : Nat → List Run → Nat → Bool
  | a, [], b => a == b
  | a, r :: rs, b => r.start == a && decide (r.start ≤ r.stop) && chainF r.stop rs b

/-- Chain of the newest-first run list, from offset `p` down to 0. -/
def revChain : List Run → Nat → Bool
  | [], p => p == 0
  | r :: rs, p => r.stop == p && decide (r.start ≤ r.stop) && revChain rs r.start

/-- Sum of the UTF-16 lengths of the runs. -/
def runLengthSum (rs : List Run) : Nat := (rs.map (fun r => r.stop - r.start)).sum

/-! ## Concrete collections used by the witnesses -/

/-- A concrete environment for witnesses. -/
def envW : MinikinEnv :=
  { langMatch := fun a b => if a.langId == b.langId then 1 else 0,
    getById := fun i => if i == 0 then [{ langId := 7, emojiFlag := false }] else [],
    decomposeFirst := fun c => if c == 0x1E00 then some 0x41 else none }

def styleW : FontStyle := { langListId := 0, variant := 0 }

/-- Family covering 'A' and the keycap, with the (A, VS16) sequence. -/
def famA : FontFamily :=
  { fid := 0, cov := [0x41, 0x20E3], hasCoverageData := true,
    hasVS := fun b s => b == 0x41 && s == 0xFE0F,
    lang := { langId := 7, emojiFlag := false }, variant := 0,
    closestMatch := fun _ => some 10 }

/-- Family covering 'A' and 'B'. -/
def famB : FontFamily :=
  { fid := 1, cov := [0x41, 0x42], hasCoverageData := true,
    hasVS := fun _ _ => false,
    lang := { langId := 8, emojiFlag := false }, variant := 0,
    closestMatch := fun _ => some 11 }

def emptyCollection : FontCollection :=
  { mFamilies := [], mMaxChar := 0, mFamilyVec := [], mRanges := [] }

def colW : FontCollection := (makeCollection [famA, famB]).getD emptyCollection

/-- Family covering only VS16 itself (used to show a variation selector
starting a new run after a null-family run). -/
def famV : FontFamily :=
  { fid := 0, cov := [0xFE0F], hasCoverageData := true,
    hasVS := fun _ _ => false,
    lang := { langId := 7, emojiFlag := false }, variant := 0,
    closestMatch := fun _ => some 20 }

def colV : FontCollection := (makeCollection [famV]).getD emptyCollection

/-- Family covering only 'A'. -/
def famS : FontFamily :=
  { fid := 0, cov := [0x41], hasCoverageData := true,
    hasVS := fun _ _ => false,
    lang := { langId := 7, emojiFlag := false }, variant := 0,
    closestMatch := fun _ => some 30 }

def colS : FontCollection := (makeCollection [famS]).getD emptyCollection

/-- Family covering only the digit '3'. -/
def famD : FontFamily :=
  { fid := 0, cov := [0x33], hasCoverageData := true,
    hasVS := fun _ _ => false,
    lang := { langId := 7, emojiFlag := false }, variant := 0,
    closestMatch := fun _ => some 40 }

/-- Family covering '3' and the combining enclosing keycap. -/
def famK : FontFamily :=
  { fid := 1, cov := [0x33, 0x20E3], hasCoverageData := true,
    hasVS := fun _ _ => false,
    lang := { langId := 8, emojiFlag := false }, variant := 0,
    closestMatch := fun _ => some 41 }

def colK : FontCollection := (makeCollection [famD, famK]).getD emptyCollection

/-! ## Lemmas about the scanning loop -/

/-- If every candidate fails the coverage filter, the scan returns its
accumulator unchanged. -/
theorem scanFamilies_all_ineligible (env : MinikinEnv) (c : FontCollection)
    (lang : FontLanguage) (ch vs variant : Nat) :
    ∀ (l : List FontFamily), (∀ f ∈ l, eligibleFamily ch vs f = false) →
    ∀ (bs : Int) (best : Option FontFamily),
    scanFamilies env c lang ch vs variant l bs best = best := by
  intro l
  induction l with
  | nil => intro _ bs best; rfl
  | cons f rest ih =>
    intro h bs best
    have hf := h f (List.mem_cons_self f rest)
    have hrest : ∀ g ∈ rest, eligibleFamily ch vs g = false :=
      fun g hg => h g (List.mem_cons_of_mem f hg)
    simp only [scanFamilies, hf, Bool.false_eq_true, if_false]
    exact ih hrest bs best

/-- If the first family passes the filter with override permission and is
among the candidates, the scan returns it (every candidate with its pointer
identity being the first family itself). -/
theorem scanFamilies_first_family (env : MinikinEnv) (c : FontCollection)
    (lang : FontLanguage) (ch vs variant : Nat) (fam0 : FontFamily)
    (hhead : c.mFamilies.head? = some fam0)
    (helig : eligibleFamily ch vs fam0 = true)
    (hover : (vs == 0 || hasVSGlyph ch vs fam0) = true) :
    ∀ (l : List FontFamily), fam0 ∈ l →
    (∀ f ∈ l, f.fid = fam0.fid → f = fam0) →
    ∀ (bs : Int) (best : Option FontFamily),
    scanFamilies env c lang ch vs variant l bs best = some fam0 := by
  have hov0 : overrideHit c ch vs fam0 = true := by
    unfold overrideHit isFirstFamily
    rw [hhead, hover]
    simp
  intro l
  induction l with
  | nil => intro h; cases h
  | cons f rest ih =>
    intro hmem hinj bs best
    by_cases hid : f.fid = fam0.fid
    · have hf : f = fam0 := hinj f (List.mem_cons_self f rest) hid
      subst hf
      simp only [scanFamilies, helig, hov0, if_true]
    · have hmem' : fam0 ∈ rest := by
        rcases List.mem_cons.mp hmem with h | h
        · exact absurd (congrArg FontFamily.fid h.symm) hid
        · exact h
      have hinj' : ∀ g ∈ rest, g.fid = fam0.fid → g = fam0 :=
        fun g hg => hinj g (List.mem_cons_of_mem f hg)
      have hnoov : overrideHit c ch vs f = false := by
        unfold overrideHit isFirstFamily
        rw [hhead]
        simp [Ne.symm hid]
      simp only [scanFamilies]
      cases he : eligibleFamily ch vs f with
      | false => simp only [Bool.false_eq_true, if_false]; exact ih hmem' hinj' bs best
      | true =>
        simp only [if_true, hnoov, Bool.false_eq_true, if_false]
        by_cases hlt : bs < (familyScore env lang ch vs variant f : Int)
        · rw [if_pos hlt]; exact ih hmem' hinj' _ _
        · rw [if_neg hlt]; exact ih hmem' hinj' _ _

/-! ## C1: the override rule -/

/-- C1: for a constructed collection and a codepoint below mMaxChar, if the
index-0 family is among the scanned candidates and covers the plain
codepoint when no selector is requested, or supports the exact variation
sequence when one is, then getFamilyForChar returns the index-0 family
(candidate pointer identity being faithful: any candidate with the same
fid is the same family), regardless of every other family's score. -/
theorem claim_C1 (tfs : List FontFamily) (fuel : Nat) (env : MinikinEnv)
    (c : FontCollection) (ch vs langListId variant : Nat) (fam0 : FontFamily)
    (hc : makeCollection tfs = some c)
    (hhead : c.mFamilies.head? = some fam0)
    (hch : ch < c.mMaxChar)
    (hmem : fam0 ∈ candidates c ch vs)
    (hinj : ∀ f ∈ candidates c ch vs, f.fid = fam0.fid → f = fam0)
    (hcov : (vs = 0 ∧ fam0.cov.contains ch = true) ∨ (vs ≠ 0 ∧ fam0.hasVS ch vs = true)) :
    getFamilyForChar (fuel + 1) env c ch vs langListId variant = some fam0 := by
  have helig : eligibleFamily ch vs fam0 = true := by
    rcases hcov with ⟨h0, hcv⟩ | ⟨hne, hvs⟩
    · unfold eligibleFamily
      rw [hcv]
      simp
    · unfold eligibleFamily hasVSGlyph
      rw [hvs]
      simp [hne]
  have hover : (vs == 0 || hasVSGlyph ch vs fam0) = true := by
    rcases hcov with ⟨h0, _⟩ | ⟨hne, hvs⟩
    · subst h0; simp
    · unfold hasVSGlyph
      rw [hvs]
      simp [hne]
  have hscan := scanFamilies_first_family env c
    ((env.getById langListId).headD defaultFontLanguage) ch vs variant fam0
    hhead helig hover (candidates c ch vs) hmem hinj (-1) none
  simp only [getFamilyForChar]
  rw [if_neg (Nat.not_le.mpr hch), hscan]

/-- Witness for C1 on the concrete two-family collection: 'A' is covered by
the index-0 family, which wins. -/
theorem claim_C1_witness : getFamilyForChar 1 envW colW 0x41 0 0 0 = some famA := by
  have hcand : candidates colW 0x41 0 = [famA, famB] := rfl
  refine claim_C1 [famA, famB] 0 envW colW 0x41 0 0 0 famA rfl rfl (by decide) ?_ ?_ ?_
  · rw [hcand]; exact List.mem_cons_self _ _
  · rw [hcand]
    intro f hf hfid
    rcases List.mem_cons.mp hf with h | h
    · exact h
    · rcases List.mem_cons.mp h with h' | h'
      · subst h'; exact absurd hfid (by decide)
      · cases h'
  · exact Or.inl ⟨rfl, by decide⟩

/-! ## C9: codepoints at or beyond mMaxChar -/

/-- C9: for any codepoint at or beyond the collection's maximum covered
codepoint bound, getFamilyForChar returns no match immediately, for every
selector, language list and variant. -/
theorem claim_C9 (fuel : Nat) (env : MinikinEnv) (c : FontCollection)
    (ch vs langListId variant : Nat) (h : c.mMaxChar ≤ ch) :
    getFamilyForChar fuel env c ch vs langListId variant = none := by
  cases fuel with
  | zero => rfl
  | succ n => simp [getFamilyForChar, h]

/-- Witness for C9 at a concrete codepoint beyond colW's bound. -/
theorem claim_C9_witness : getFamilyForChar 5 envW colW 0x30000 0 0 0 = none :=
  claim_C9 5 envW colW 0x30000 0 0 0 (by decide)

/-! ## C8: hasVariationSelector -/

/-- C8: hasVariationSelector is false for any selector outside the two
recognized ranges and for any base at or beyond mMaxChar; otherwise it is
true exactly when some family of the full family list supports the exact
(base, selector) sequence. -/
theorem claim_C8 (c : FontCollection) (base sel : Nat) :
    (isVariationSelector sel = false → c.hasVariationSelector base sel = false) ∧
    (c.mMaxChar ≤ base → c.hasVariationSelector base sel = false) ∧
    (isVariationSelector sel = true → base < c.mMaxChar →
      (c.hasVariationSelector base sel = true ↔ ∃ f ∈ c.mFamilies, f.hasVS base sel = true)) := by
  refine ⟨?_, ?_, ?_⟩
  · intro h
    unfold FontCollection.hasVariationSelector
    rw [h]
    rfl
  · intro h
    unfold FontCollection.hasVariationSelector
    cases hv : isVariationSelector sel with
    | false => rfl
    | true => simp [h]
  · intro hv hlt
    unfold FontCollection.hasVariationSelector
    rw [hv]
    simp [Nat.not_le.mpr hlt, List.any_eq_true]

/-- Witness for C8 on colW: VS16 on base 'A' is reported supported exactly
by the family-list scan. -/
theorem claim_C8_witness :
    colW.hasVariationSelector 0x41 0xFE0F = true ↔
      ∃ f ∈ colW.mFamilies, f.hasVS 0x41 0xFE0F = true :=
  (claim_C8 colW 0x41 0xFE0F).2.2 (by decide) (by decide)

/-! ## C2: the scoring heuristic -/

/-- The best-score selection underlying the scan once the coverage filter
has been applied and no override fires: strict improvement over the running
best replaces it, so ties keep the earliest candidate. -/
def selectBest (score : FontFamily → Nat) :
    List FontFamily → Int → Option FontFamily → Option FontFamily
  | [], _, best => best
  | f :: rest, bs, best =>
    if bs < (score f : Int) then selectBest score rest (score f) (some f)
    else selectBest score rest bs best

/-- Without an override hit, the scan is the best-score selection over the
filtered candidate list. -/
theorem scanFamilies_eq_selectBest (env : MinikinEnv) (c : FontCollection)
    (lang : FontLanguage) (ch vs variant : Nat) :
    ∀ (l : List FontFamily),
    (∀ f ∈ l, eligibleFamily ch vs f = true → overrideHit c ch vs f = false) →
    ∀ (bs : Int) (best : Option FontFamily),
    scanFamilies env c lang ch vs variant l bs best =
      selectBest (familyScore env lang ch vs variant)
        (l.filter (eligibleFamily ch vs)) bs best := by
  intro l
  induction l with
  | nil => intro _ bs best; rfl
  | cons f rest ih =>
    intro h bs best
    have hrest : ∀ g ∈ rest, eligibleFamily ch vs g = true → overrideHit c ch vs g = false :=
      fun g hg => h g (List.mem_cons_of_mem f hg)
    cases he : eligibleFamily ch vs f with
    | false =>
      have hfil : List.filter (eligibleFamily ch vs) (f :: rest) =
          List.filter (eligibleFamily ch vs) rest := by
        simp [List.filter_cons, he]
      rw [hfil]
      simp only [scanFamilies, he, Bool.false_eq_true, if_false]
      exact ih hrest bs best
    | true =>
      have hno := h f (List.mem_cons_self f rest) he
      rw [List.filter_cons_of_pos he]
      simp only [scanFamilies, he, hno, if_true, Bool.false_eq_true, if_false, selectBest]
      by_cases hlt : bs < (familyScore env lang ch vs variant f : Int)
      · rw [if_pos hlt, if_pos hlt]; exact ih hrest _ _
      · rw [if_neg hlt, if_neg hlt]; exact ih hrest _ _

/-- When no candidate can beat the running best score, the selection keeps
the accumulator. -/
theorem selectBest_skip (score : FontFamily → Nat) :
    ∀ (l : List FontFamily) (bs : Int) (best : Option FontFamily),
    (∀ f ∈ l, (score f : Int) ≤ bs) →
    selectBest score l bs best = best := by
  intro l
  induction l with
  | nil => intro bs best _; rfl
  | cons f rest ih =>
    intro bs best h
    have hf := h f (List.mem_cons_self f rest)
    unfold selectBest
    rw [if_neg (by omega)]
    exact ih bs best (fun g hg => h g (List.mem_cons_of_mem f hg))

/-- The selection picks the first candidate of maximal score: everything
before it scores strictly less, everything after it scores no more. -/
theorem selectBest_spec (score : FontFamily → Nat) :
    ∀ (l : List FontFamily) (bs : Int) (best : Option FontFamily),
    (∃ f ∈ l, bs < (score f : Int)) →
    ∃ b l₁ l₂, selectBest score l bs best = some b ∧ l = l₁ ++ b :: l₂ ∧
      bs < (score b : Int) ∧
      (∀ f ∈ l₁, score f < score b) ∧ (∀ f ∈ l₂, score f ≤ score b) := by
  intro l
  induction l with
  | nil => intro bs best h; obtain ⟨f, hf, _⟩ := h; cases hf
  | cons f rest ih =>
    intro bs best h
    by_cases hf : bs < (score f : Int)
    · by_cases hrest : ∃ g ∈ rest, (score f : Int) < (score g : Int)
      · obtain ⟨b, l₁, l₂, heq, hsplit, hbs, h1, h2⟩ := ih (score f) (some f) hrest
        refine ⟨b, f :: l₁, l₂, ?_, ?_, ?_, ?_, h2⟩
        · unfold selectBest; rw [if_pos hf]; exact heq
        · rw [hsplit]; rfl
        · omega
        · intro g hg
          rcases List.mem_cons.mp hg with hg' | hg'
          · subst hg'; omega
          · exact h1 g hg'
      · push_neg at hrest
        refine ⟨f, [], rest, ?_, rfl, hf, ?_, ?_⟩
        · unfold selectBest
          rw [if_pos hf]
          exact selectBest_skip score rest _ _ hrest
        · intro g hg
          cases hg
        · intro g hg
          have := hrest g hg
          omega
    · obtain ⟨g, hg, hbsg⟩ := h
      have hg' : g ∈ rest := by
        rcases List.mem_cons.mp hg with h' | h'
        · subst h'; omega
        · exact h'
      obtain ⟨b, l₁, l₂, heq, hsplit, hbs, h1, h2⟩ := ih bs best ⟨g, hg', hbsg⟩
      refine ⟨b, f :: l₁, l₂, ?_, ?_, hbs, ?_, h2⟩
      · unfold selectBest; rw [if_neg hf]; exact heq
      · rw [hsplit]; rfl
      · intro x hx
        rcases List.mem_cons.mp hx with hx' | hx'
        · subst hx'; omega
        · exact h1 x hx'

/-- C2: if no override fires among the scanned candidates, getFamilyForChar
returns the first candidate of maximal familyScore among those passing the
coverage filter — each such candidate's score being twice the language
match, plus one on a matching or unset variant, plus 8 for exact sequence
support else plus 4 for a presentation-matching selector (all in
familyScore) — so the maximum wins and ties keep the earliest candidate. -/
theorem claim_C2 (fuel : Nat) (env : MinikinEnv) (c : FontCollection)
    (ch vs langListId variant : Nat)
    (hch : ch < c.mMaxChar)
    (hnoov : ∀ f ∈ candidates c ch vs,
      eligibleFamily ch vs f = true → overrideHit c ch vs f = false)
    (hne : (candidates c ch vs).filter (eligibleFamily ch vs) ≠ []) :
    ∃ b l₁ l₂,
      getFamilyForChar (fuel + 1) env c ch vs langListId variant = some b ∧
      (candidates c ch vs).filter (eligibleFamily ch vs) = l₁ ++ b :: l₂ ∧
      (∀ f ∈ l₁,
        familyScore env ((env.getById langListId).headD defaultFontLanguage) ch vs variant f <
        familyScore env ((env.getById langListId).headD defaultFontLanguage) ch vs variant b) ∧
      (∀ f ∈ l₂,
        familyScore env ((env.getById langListId).headD defaultFontLanguage) ch vs variant f ≤
        familyScore env ((env.getById langListId).headD defaultFontLanguage) ch vs variant b) := by
  obtain ⟨f0, hf0⟩ := List.exists_mem_of_ne_nil _ hne
  obtain ⟨b, l₁, l₂, heq, hsplit, _, h1, h2⟩ :=
    selectBest_spec (familyScore env ((env.getById langListId).headD defaultFontLanguage)
      ch vs variant) ((candidates c ch vs).filter (eligibleFamily ch vs)) (-1) none
      ⟨f0, hf0, by omega⟩
  refine ⟨b, l₁, l₂, ?_, hsplit, h1, h2⟩
  simp only [getFamilyForChar]
  rw [if_neg (Nat.not_le.mpr hch),
    scanFamilies_eq_selectBest env c _ ch vs variant (candidates c ch vs) hnoov (-1) none, heq]

/-- Witness for C2 on colW at 'B': the only eligible candidate is the
second family, which is returned. -/
theorem claim_C2_witness :
    ∃ b l₁ l₂,
      getFamilyForChar 1 envW colW 0x42 0 0 0 = some b ∧
      (candidates colW 0x42 0).filter (eligibleFamily 0x42 0) = l₁ ++ b :: l₂ ∧
      (∀ f ∈ l₁,
        familyScore envW ((envW.getById 0).headD defaultFontLanguage) 0x42 0 0 f <
        familyScore envW ((envW.getById 0).headD defaultFontLanguage) 0x42 0 0 b) ∧
      (∀ f ∈ l₂,
        familyScore envW ((envW.getById 0).headD defaultFontLanguage) 0x42 0 0 f ≤
        familyScore envW ((envW.getById 0).headD defaultFontLanguage) 0x42 0 0 b) := by
  have hcand : candidates colW 0x42 0 = [famA, famB] := rfl
  refine claim_C2 0 envW colW 0x42 0 0 0 (by decide) ?_ ?_
  · rw [hcand]
    intro f hf he
    rcases List.mem_cons.mp hf with h | h
    · subst h; exact absurd he (by decide)
    · rcases List.mem_cons.mp h with h' | h'
      · subst h'; decide
      · cases h'
  · have : (candidates colW 0x42 0).filter (eligibleFamily 0x42 0) = [famB] := rfl
    rw [this]
    exact List.cons_ne_nil _ _

/-! ## Construction lemmas -/

theorem shiftLeft_page (a : Nat) : a <<< kLogCharsPerPage = a * 256 := by
  rw [Nat.shiftLeft_eq]
  norm_num [kLogCharsPerPage]

theorem shiftRight_page (a : Nat) : a >>> kLogCharsPerPage = a / 256 := by
  rw [Nat.shiftRight_eq_div_pow]
  norm_num [kLogCharsPerPage]

theorem kPageMask_eq : kPageMask = 255 := rfl

/-- mMaxChar never exceeds the page table's upper boundary. -/
theorem maxChar_le_pages (x : Nat) :
    x ≤ ((x + kPageMask) >>> kLogCharsPerPage) <<< kLogCharsPerPage := by
  rw [shiftLeft_page, shiftRight_page, kPageMask_eq]
  omega

/-- A positive mMaxChar yields at least one page. -/
theorem pages_pos {x : Nat} (h : 0 < x) :
    1 ≤ (x + kPageMask) >>> kLogCharsPerPage := by
  rw [shiftRight_page, kPageMask_eq]
  omega

/-- The running foldl maximum is the seed or is attained by some element. -/
theorem foldl_max_attains :
    ∀ (l : List FontFamily) (a : Nat),
    l.foldl (fun m f => max m (covLength f.cov)) a = a ∨
    ∃ f ∈ l, l.foldl (fun m f => max m (covLength f.cov)) a = covLength f.cov := by
  intro l
  induction l with
  | nil => intro a; exact Or.inl rfl
  | cons f rest ih =>
    intro a
    rcases ih (max a (covLength f.cov)) with h | ⟨g, hg, h⟩
    · rcases Nat.le_total (covLength f.cov) a with hle | hle
      · left
        rw [List.foldl_cons, h, Nat.max_eq_left hle]
      · right
        exact ⟨f, List.mem_cons_self f rest, by rw [List.foldl_cons, h, Nat.max_eq_right hle]⟩
    · exact Or.inr ⟨g, List.mem_cons_of_mem f hg, h⟩

/-- A positive coverage length is attained: some covered codepoint is one
below it. -/
theorem covLength_attains :
    ∀ (cov : List Nat), 0 < covLength cov → ∃ x ∈ cov, x + 1 = covLength cov := by
  intro cov
  induction cov with
  | nil => intro h; exact absurd h (by decide)
  | cons x rest ih =>
    intro _
    have hstep : covLength (x :: rest) = max (x + 1) (covLength rest) := rfl
    rcases Nat.le_total (covLength rest) (x + 1) with hle | hle
    · exact ⟨x, List.mem_cons_self x rest, by rw [hstep, Nat.max_eq_left hle]⟩
    · have hpos : 0 < covLength rest := by omega
      obtain ⟨y, hy, h⟩ := ih hpos
      exact ⟨y, List.mem_cons_of_mem x hy, by rw [hstep, Nat.max_eq_right hle, h]⟩

/-- The first covered codepoint is no later than any covered codepoint. -/
theorem nextSetBit_le_of_mem :
    ∀ (cov : List Nat) (x : Nat), x ∈ cov → nextSetBit cov 0 ≤ x := by
  intro cov
  induction cov with
  | nil => intro x hx; cases hx
  | cons y rest ih =>
    intro x hx
    have hstep : nextSetBit (y :: rest) 0 = min y (nextSetBit rest 0) := by
      show (if 0 ≤ y then min y (nextSetBit rest 0) else nextSetBit rest 0) =
        min y (nextSetBit rest 0)
      rw [if_pos (Nat.zero_le y)]
    rcases List.mem_cons.mp hx with h | h
    · subst h; rw [hstep]; exact Nat.min_le_left _ _
    · rw [hstep]; exact Nat.le_trans (Nat.min_le_right _ _) (ih x h)

/-- A tracker at or past the page boundary survives the page unchanged. -/
theorem pageScan_keep (bound : Nat) :
    ∀ (st : List (FontFamily × Nat)) (p : FontFamily × Nat),
    p ∈ st → bound ≤ p.2 → p ∈ (pageScan bound st).2 := by
  intro st
  induction st with
  | nil => intro p hp; cases hp
  | cons q rest ih =>
    intro p hp hb
    obtain ⟨f, lc⟩ := q
    rcases List.mem_cons.mp hp with h | h
    · subst h
      have : ¬ (lc < bound) := Nat.not_lt.mpr hb
      simp only [pageScan, if_neg this]
      exact List.mem_cons_self _ _
    · by_cases hlt : lc < bound
      · simp only [pageScan, if_pos hlt]
        exact List.mem_cons_of_mem _ (ih p h hb)
      · simp only [pageScan, if_neg hlt]
        exact List.mem_cons_of_mem _ (ih p h hb)

/-- A tracker below the page boundary makes the page non-empty. -/
theorem pageScan_fire (bound : Nat) :
    ∀ (st : List (FontFamily × Nat)) (p : FontFamily × Nat),
    p ∈ st → p.2 < bound → (pageScan bound st).1 ≠ [] := by
  intro st
  induction st with
  | nil => intro p hp; cases hp
  | cons q rest ih =>
    intro p hp hb
    obtain ⟨f, lc⟩ := q
    by_cases hlt : lc < bound
    · simp only [pageScan, if_pos hlt]
      exact List.cons_ne_nil _ _
    · simp only [pageScan, if_neg hlt]
      rcases List.mem_cons.mp hp with h | h
      · subst h; exact absurd hb hlt
      · exact ih p h hb

/-- A tracker below the table's upper boundary lands in some page, so the
flattened family vector is non-empty. -/
theorem buildRanges_fst_ne_nil :
    ∀ (n i offset : Nat) (st : List (FontFamily × Nat)) (p : FontFamily × Nat),
    p ∈ st → p.2 < (i + n) <<< kLogCharsPerPage → 1 ≤ n →
    (buildRanges n i offset st).1 ≠ [] := by
  intro n
  induction n with
  | zero => intro i offset st p _ _ h1; omega
  | succ m ih =>
    intro i offset st p hmem hlt _
    by_cases hfire : p.2 < (i + 1) <<< kLogCharsPerPage
    · have hne := pageScan_fire ((i + 1) <<< kLogCharsPerPage) st p hmem hfire
      simp only [buildRanges]
      intro hcontra
      exact hne (List.append_eq_nil.mp hcontra).1
    · have hkeep := pageScan_keep ((i + 1) <<< kLogCharsPerPage) st p hmem (Nat.le_of_not_lt hfire)
      have hm : 1 ≤ m := by
        have h1 : (i + 1) <<< kLogCharsPerPage ≤ p.2 := Nat.le_of_not_lt hfire
        rw [shiftLeft_page] at h1
        rw [shiftLeft_page] at hlt
        omega
      have hlt' : p.2 < ((i + 1) + m) <<< kLogCharsPerPage := by
        have : (i + 1) + m = i + (m + 1) := by omega
        rw [this]
        exact hlt
      have hne := ih (i + 1) (offset + (pageScan ((i + 1) <<< kLogCharsPerPage) st).1.length)
        (pageScan ((i + 1) <<< kLogCharsPerPage) st).2 p hkeep hlt' hm
      simp only [buildRanges]
      intro hcontra
      exact hne (List.append_eq_nil.mp hcontra).2

/-- Inversion of the constructor. -/
theorem makeCollection_inv {tfs : List FontFamily} {c : FontCollection}
    (h : makeCollection tfs = some c) :
    c.mFamilies = survivors tfs ∧ survivors tfs ≠ [] ∧
    c.mMaxChar = collectionMaxChar (survivors tfs) ∧
    c.mFamilyVec = (collectionPages (survivors tfs)).1 ∧
    c.mRanges = (collectionPages (survivors tfs)).2 := by
  simp only [makeCollection] at h
  by_cases he : (survivors tfs).isEmpty
  · rw [if_pos he] at h; cases h
  · rw [if_neg he] at h
    injection h with h
    subst h
    refine ⟨rfl, ?_, rfl, rfl, rfl⟩
    intro hnil
    rw [hnil] at he
    exact he rfl

/-- A constructed collection with a positive coverage bound has a non-empty
flattened family vector: having any family at all coincides with the
mFamilyVec emptiness test of the fallback chain. -/
theorem mFamilyVec_ne_nil {tfs : List FontFamily} {c : FontCollection}
    (hc : makeCollection tfs = some c) (hpos : 0 < c.mMaxChar) :
    c.mFamilyVec ≠ [] := by
  obtain ⟨_, _, hmax, hvec, _⟩ := makeCollection_inv hc
  rw [hvec]
  rw [hmax] at hpos
  unfold collectionMaxChar at hpos
  rcases foldl_max_attains (survivors tfs) 0 with h0 | ⟨f, hf, hfeq⟩
  · rw [h0] at hpos; omega
  · have hcovpos : 0 < covLength f.cov := by rw [← hfeq]; exact hpos
    obtain ⟨x, hx, hx1⟩ := covLength_attains f.cov hcovpos
    have hnsb : nextSetBit f.cov 0 ≤ x := nextSetBit_le_of_mem f.cov x hx
    unfold collectionPages
    apply buildRanges_fst_ne_nil _ 0 0 _ (f, nextSetBit f.cov 0)
      (List.mem_map.mpr ⟨f, hf, rfl⟩)
    · have hle := maxChar_le_pages (collectionMaxChar (survivors tfs))
      have hcc : collectionMaxChar (survivors tfs) = covLength f.cov := by
        unfold collectionMaxChar
        exact hfeq
      rw [Nat.zero_add]
      omega
    · exact pages_pos hpos

/-! ## C3 and C4: the fallback chain -/

/-- When no scanned candidate passes the coverage filter, getFamilyForChar
reduces to its fallback chain. -/
theorem getFamilyForChar_no_match_step (fuel : Nat) (env : MinikinEnv)
    (c : FontCollection) (ch vs langListId variant : Nat)
    (hch : ch < c.mMaxChar)
    (hnone : ∀ f ∈ candidates c ch vs, eligibleFamily ch vs f = false) :
    getFamilyForChar (fuel + 1) env c ch vs langListId variant =
      (if vs != 0 then getFamilyForChar fuel env c ch 0 langListId variant
       else if c.mFamilyVec.isEmpty then none
       else
         match env.decomposeFirst ch with
         | some ch2 => getFamilyForChar fuel env c ch2 vs langListId variant
         | none => c.mFamilies.head?) := by
  have hscan := scanFamilies_all_ineligible env c
    ((env.getById langListId).headD defaultFontLanguage) ch vs variant
    (candidates c ch vs) hnone (-1) none
  simp only [getFamilyForChar]
  rw [if_neg (Nat.not_le.mpr hch), hscan]

/-- C3: when no scanned candidate matches, the fallback chain is: with a
selector, recurse with the selector cleared; otherwise (the constructed
collection having a family, hence a non-empty mFamilyVec) recurse on the
first decoded codepoint of the canonical decomposition with the same
selector when one exists, and finally return the index-0 family when the
decomposition is unavailable or empty. -/
theorem claim_C3 (tfs : List FontFamily) (fuel : Nat) (env : MinikinEnv)
    (c : FontCollection) (ch vs langListId variant : Nat)
    (hc : makeCollection tfs = some c)
    (hch : ch < c.mMaxChar)
    (hnone : ∀ f ∈ candidates c ch vs, eligibleFamily ch vs f = false) :
    (vs ≠ 0 → getFamilyForChar (fuel + 1) env c ch vs langListId variant =
      getFamilyForChar fuel env c ch 0 langListId variant) ∧
    (vs = 0 → ∀ ch2, env.decomposeFirst ch = some ch2 →
      getFamilyForChar (fuel + 1) env c ch vs langListId variant =
        getFamilyForChar fuel env c ch2 vs langListId variant) ∧
    (vs = 0 → env.decomposeFirst ch = none →
      ∃ fam0, c.mFamilies.head? = some fam0 ∧
        getFamilyForChar (fuel + 1) env c ch vs langListId variant = some fam0) := by
  have hstep := getFamilyForChar_no_match_step fuel env c ch vs langListId variant hch hnone
  have hvecne : c.mFamilyVec ≠ [] :=
    mFamilyVec_ne_nil hc (Nat.lt_of_le_of_lt (Nat.zero_le ch) hch)
  have hvec : c.mFamilyVec.isEmpty = false := by
    cases h' : c.mFamilyVec with
    | nil => exact absurd h' hvecne
    | cons a l => rfl
  refine ⟨?_, ?_, ?_⟩
  · intro hvs
    rw [hstep]
    simp [hvs]
  · intro hvs ch2 hdec
    subst hvs
    rw [hstep]
    simp [hvec, hdec]
  · intro hvs hdec
    subst hvs
    obtain ⟨hfam, hne, _, _, _⟩ := makeCollection_inv hc
    obtain ⟨a, t, hcons⟩ := List.exists_cons_of_ne_nil hne
    refine ⟨a, ?_, ?_⟩
    · rw [hfam, hcons]; rfl
    · rw [hstep]
      simp [hvec, hdec, hfam, hcons]

/-- Witness for C3 on colW at an uncovered codepoint with no selector and
no decomposition: the index-0 family is returned. -/
theorem claim_C3_witness :
    (¬ (0 : Nat) ≠ 0 → True) ∧
    ((0 : Nat) = 0 → ∀ ch2, envW.decomposeFirst 0x43 = some ch2 →
      getFamilyForChar 1 envW colW 0x43 0 0 0 = getFamilyForChar 0 envW colW ch2 0 0 0) ∧
    ((0 : Nat) = 0 → envW.decomposeFirst 0x43 = none →
      ∃ fam0, colW.mFamilies.head? = some fam0 ∧
        getFamilyForChar 1 envW colW 0x43 0 0 0 = some fam0) := by
  have h := claim_C3 [famA, famB] 0 envW colW 0x43 0 0 0 rfl (by decide) ?_
  · exact ⟨fun _ => trivial, h.2.1, h.2.2⟩
  · have hcand : candidates colW 0x43 0 = [famA, famB] := rfl
    rw [hcand]
    intro f hf
    rcases List.mem_cons.mp hf with h' | h'
    · subst h'; decide
    · rcases List.mem_cons.mp h' with h'' | h''
      · subst h''; decide
      · cases h''

/-- C4 (amended): for a constructed collection, whenever resolution reaches
the final fallback step — codepoint below mMaxChar, no scanned candidate
passing the coverage filter, no selector, and decomposition unavailable or
empty — it assigns the index-0 family. (As the counterexample shows, the
original claim fails: resolution returns no family at all for codepoints at
or beyond mMaxChar, and itemize then emits a run with a null font.) -/
theorem claim_C4 (tfs : List FontFamily) (fuel : Nat) (env : MinikinEnv)
    (c : FontCollection) (ch langListId variant : Nat)
    (hc : makeCollection tfs = some c)
    (hch : ch < c.mMaxChar)
    (hnone : ∀ f ∈ candidates c ch 0, eligibleFamily ch 0 f = false)
    (hdec : env.decomposeFirst ch = none) :
    ∃ fam0, c.mFamilies.head? = some fam0 ∧
      getFamilyForChar (fuel + 1) env c ch 0 langListId variant = some fam0 := by
  have hstep := getFamilyForChar_no_match_step fuel env c ch 0 langListId variant hch hnone
  have hvecne : c.mFamilyVec ≠ [] :=
    mFamilyVec_ne_nil hc (Nat.lt_of_le_of_lt (Nat.zero_le ch) hch)
  have hvec : c.mFamilyVec.isEmpty = false := by
    cases h' : c.mFamilyVec with
    | nil => exact absurd h' hvecne
    | cons a l => rfl
  obtain ⟨hfam, hne, _, _, _⟩ := makeCollection_inv hc
  obtain ⟨a, t, hcons⟩ := List.exists_cons_of_ne_nil hne
  refine ⟨a, ?_, ?_⟩
  · rw [hfam, hcons]; rfl
  · rw [hstep]
    simp [hvec, hdec, hfam, hcons]

/-- Witness for C4 (amended) at an uncovered codepoint of colW. -/
theorem claim_C4_witness :
    ∃ fam0, colW.mFamilies.head? = some fam0 ∧
      getFamilyForChar 1 envW colW 0x43 0 0 0 = some fam0 := by
  refine claim_C4 [famA, famB] 0 envW colW 0x43 0 0 rfl (by decide) ?_ (by decide)
  have hcand : candidates colW 0x43 0 = [famA, famB] := rfl
  rw [hcand]
  intro f hf
  rcases List.mem_cons.mp hf with h' | h'
  · subst h'; decide
  · rcases List.mem_cons.mp h' with h'' | h''
    · subst h''; decide
    · cases h''

/-- Counterexample to C4 as stated: on the constructed single-family
collection colS (which covers only 'A', with mMaxChar = 0x42), the
codepoint 'F' = 0x46 resolves to no family at all, and itemize emits a run
whose resolved font handle is null — so itemization does fail to assign a
family for this codepoint even though the collection has a family. -/
theorem claim_C4_counterexample :
    makeCollection [famS] = some colS ∧
    getFamilyForChar 3 envW colS 0x46 0 0 0 = none ∧
    itemize 3 envW colS [0x46] styleW = [{ font := none, start := 0, stop := 1 }] :=
  ⟨rfl, rfl, rfl⟩

/-! ## C5: run structure of itemize -/

/-- The decoder does not read past the end of the string. -/
theorem u16Next_snd_le (s : List Nat) (i : Nat) (h : i < s.length) :
    (u16Next s i).2 ≤ s.length := by
  unfold u16Next
  dsimp only
  split
  · rename_i hcond
    have h2 : i + 1 < s.length := by
      have ha := (Bool.and_eq_true _ _).mp hcond
      have hb := (Bool.and_eq_true _ _).mp ha.1
      exact of_decide_eq_true hb.2
    omega
  · omega

/-- For in-range UTF-16 code units, the decoded codepoint's UTF-16 length
is exactly the number of code units consumed. -/
theorem u16Next_len (s : List Nat) (i : Nat) (hu : ∀ u ∈ s, u < 65536)
    (h : i < s.length) : i + u16Length (u16Next s i).1 = (u16Next s i).2 := by
  have hmem : s.getD i 0 < 65536 := by
    rw [List.getD_eq_get s 0 h]
    exact hu _ (List.get_mem s i h)
  unfold u16Next
  dsimp only
  split
  · unfold u16Length
    have h2 : (2 : Nat) ^ 10 = 1024 := by norm_num
    rw [if_neg (by rw [Nat.shiftLeft_eq, h2]; omega)]
  · unfold u16Length
    rw [if_pos (by omega)]

/-- A run list chaining down to a non-zero offset is non-empty. -/
theorem revChain_ne_nil {rs : List Run} {p : Nat}
    (h : revChain rs p = true) (hp : p ≠ 0) : rs ≠ [] := by
  cases rs with
  | nil =>
    simp only [revChain, beq_iff_eq] at h
    exact absurd h hp
  | cons r l => exact List.cons_ne_nil _ _

/-- Introduction form of the chain at a cons cell. -/
theorem revChain_cons_intro {r : Run} {rs : List Run} {p : Nat}
    (h1 : r.stop = p) (h2 : r.start ≤ r.stop) (h3 : revChain rs r.start = true) :
    revChain (r :: rs) p = true := by
  simp only [revChain, Bool.and_eq_true, beq_iff_eq, decide_eq_true_eq]
  exact ⟨⟨h1, h2⟩, h3⟩

/-- Elimination form of the chain at a cons cell. -/
theorem revChain_cons_elim {r : Run} {rs : List Run} {p : Nat}
    (h : revChain (r :: rs) p = true) :
    r.stop = p ∧ r.start ≤ r.stop ∧ revChain rs r.start = true := by
  simp only [revChain, Bool.and_eq_true, beq_iff_eq, decide_eq_true_eq] at h
  exact ⟨h.1.1, h.1.2, h.2⟩

/-- Extending the newest run's end preserves the chain. -/
theorem setHeadStop_facts {r : Run} {rs : List Run} {p q : Nat} (hq : p ≤ q)
    (hchain : revChain (r :: rs) p = true) :
    revChain (setHeadStop (r :: rs) q) q = true ∧ r.start ≤ p := by
  obtain ⟨h1, h2, h3⟩ := revChain_cons_elim hchain
  constructor
  · show revChain ({ r with stop := q } :: rs) q = true
    exact revChain_cons_intro rfl (by dsimp only; omega) h3
  · omega

/-- Bound on the newest run's start needed by the keycap retraction: the
previous codepoint's code units lie inside the newest run. -/
def headStartOk : List Run → Nat → Nat → Prop
  | [], _, _ => True
  | r :: _, pc, pos => r.start + u16Length pc ≤ pos

/-- The loop invariant at position `pos`: the runs built so far chain from
0 up to `pos`, an empty result means no active family yet, and the newest
run starts early enough to contain the previous codepoint. -/
def ItInv (st : ItState) (pos : Nat) : Prop :=
  revChain st.result pos = true ∧ (st.result = [] → st.lastFamily = none) ∧
  headStartOk st.result st.prevCh pos

/-- The loop body in branch-separated form, for case reasoning. -/
theorem itemizeBody_eq (L : ItArgs) (ch nextCh p q : Nat) (st : ItState) :
    itemizeBody L ch nextCh p q st =
      (if itemizeShouldContinue st ch then
        { result := setHeadStop st.result q, lastFamily := st.lastFamily, prevCh := ch }
       else
        { result := setHeadStop (itemizeResolve L ch nextCh p st).result q,
          lastFamily := (itemizeResolve L ch nextCh p st).lastFamily, prevCh := ch }) := by
  unfold itemizeBody
  by_cases h : itemizeShouldContinue st ch
  · rw [if_pos h, if_pos h]
  · rw [if_neg h, if_neg h]

/-- The resolving branch in branch-separated form, with the resolved
family abstracted. -/
theorem itemizeResolve_eq (L : ItArgs) (ch nextCh p : Nat) (st : ItState)
    (F : Option FontFamily)
    (hF : F = getFamilyForChar L.fuel L.env L.col ch
      (if isVariationSelector nextCh then nextCh else 0) L.style.langListId L.style.variant) :
    itemizeResolve L ch nextCh p st =
      (if (p == 0 || optFid F != optFid st.lastFamily) then
        (if keycapCond F ch p st.prevCh then
          { result :=
              { font := runFont F L.style, start := p - u16Length st.prevCh, stop := 0 } ::
                retractKeycap st.result (u16Length st.prevCh),
            lastFamily := F, prevCh := st.prevCh }
         else
          { result := { font := runFont F L.style, start := p, stop := 0 } :: st.result,
            lastFamily := F, prevCh := st.prevCh })
       else st) := by
  subst hF
  rfl

/-- One iteration of the body preserves the invariant, moving the frontier
from `p` to `q`, and leaves at least one run. -/
theorem itemizeBody_inv (L : ItArgs) (ch nextCh p q : Nat) (st : ItState)
    (hpq : q = p + u16Length ch)
    (hinv : ItInv st p) :
    ItInv (itemizeBody L ch nextCh p q st) q ∧ (itemizeBody L ch nextCh p q st).result ≠ [] := by
  obtain ⟨hchain, hemp, hhead⟩ := hinv
  have hpleq : p ≤ q := by omega
  rw [itemizeBody_eq]
  by_cases hsc : itemizeShouldContinue st ch = true
  · rw [if_pos hsc]
    have hne : st.result ≠ [] := by
      intro hnil
      have hlf := hemp hnil
      simp only [itemizeShouldContinue, hlf] at hsc
      exact Bool.false_ne_true hsc
    obtain ⟨r, rs, hcons⟩ := List.exists_cons_of_ne_nil hne
    rw [hcons] at hchain
    obtain ⟨hch', hst'⟩ := setHeadStop_facts hpleq hchain
    unfold ItInv
    dsimp only
    rw [hcons]
    refine ⟨⟨hch', ?_, ?_⟩, ?_⟩
    · intro hcontra
      simp only [setHeadStop] at hcontra
      exact absurd hcontra (List.cons_ne_nil _ _)
    · simp only [setHeadStop, headStartOk]
      omega
    · simp only [setHeadStop]
      exact List.cons_ne_nil _ _
  · rw [if_neg hsc]
    set F := getFamilyForChar L.fuel L.env L.col ch
      (if isVariationSelector nextCh then nextCh else 0) L.style.langListId L.style.variant
      with hF
    rw [itemizeResolve_eq L ch nextCh p st F hF]
    by_cases hnr : (p == 0 || optFid F != optFid st.lastFamily) = true
    · rw [if_pos hnr]
      by_cases hkc : keycapCond F ch p st.prevCh = true
      · rw [if_pos hkc]
        have hp0 : p ≠ 0 := by
          have ha := (Bool.and_eq_true _ _).mp hkc
          have hb := (Bool.and_eq_true _ _).mp ha.1
          exact bne_iff_ne.mp hb.2
        have hne : st.result ≠ [] := revChain_ne_nil hchain hp0
        obtain ⟨r, rs, hcons⟩ := List.exists_cons_of_ne_nil hne
        rw [hcons] at hchain hhead
        obtain ⟨h1, h2, h3⟩ := revChain_cons_elim hchain
        simp only [headStartOk] at hhead
        unfold ItInv
        dsimp only
        rw [hcons]
        refine ⟨⟨?_, ?_, ?_⟩, ?_⟩
        · show revChain
            ({ font := runFont F L.style, start := p - u16Length st.prevCh, stop := q } ::
              retractKeycap (r :: rs) (u16Length st.prevCh)) q = true
          refine revChain_cons_intro rfl (by dsimp only; omega) ?_
          show revChain (retractKeycap (r :: rs) (u16Length st.prevCh))
            (p - u16Length st.prevCh) = true
          unfold retractKeycap
          dsimp only
          by_cases htr : (r.start == r.stop - u16Length st.prevCh) = true
          · rw [if_pos htr]
            have heq : r.start = r.stop - u16Length st.prevCh := beq_iff_eq.mp htr
            rw [h1] at heq
            rw [← heq]
            exact h3
          · rw [if_neg htr]
            exact revChain_cons_intro (by dsimp only; omega) (by dsimp only; omega) h3
        · intro hcontra
          simp only [setHeadStop] at hcontra
          exact absurd hcontra (List.cons_ne_nil _ _)
        · simp only [setHeadStop, headStartOk]
          omega
        · simp only [setHeadStop]
          exact List.cons_ne_nil _ _
      · rw [if_neg hkc]
        unfold ItInv
        dsimp only
        refine ⟨⟨?_, ?_, ?_⟩, ?_⟩
        · show revChain ({ font := runFont F L.style, start := p, stop := q } :: st.result)
            q = true
          exact revChain_cons_intro rfl hpleq hchain
        · intro hcontra
          simp only [setHeadStop] at hcontra
          exact absurd hcontra (List.cons_ne_nil _ _)
        · simp only [setHeadStop, headStartOk]
          omega
        · simp only [setHeadStop]
          exact List.cons_ne_nil _ _
    · rw [if_neg hnr]
      have hp0 : p ≠ 0 := by
        intro h0
        subst h0
        simp at hnr
      have hne : st.result ≠ [] := revChain_ne_nil hchain hp0
      obtain ⟨r, rs, hcons⟩ := List.exists_cons_of_ne_nil hne
      rw [hcons] at hchain
      obtain ⟨hch', hst'⟩ := setHeadStop_facts hpleq hchain
      unfold ItInv
      dsimp only
      rw [hcons]
      refine ⟨⟨hch', ?_, ?_⟩, ?_⟩
      · intro hcontra
        simp only [setHeadStop] at hcontra
        exact absurd hcontra (List.cons_ne_nil _ _)
      · simp only [setHeadStop, headStartOk]
        omega
      · simp only [setHeadStop]
        exact List.cons_ne_nil _ _

/-- The loop invariant carries through the whole loop: once the sentinel is
reached the accumulated runs chain from 0 to the full input length. -/
theorem itemizeLoop_inv (fuel : Nat) (env : MinikinEnv) (c : FontCollection)
    (style : FontStyle) (s : List Nat) (hu : ∀ u ∈ s, u < 65536) :
    ∀ (gas ch p rl : Nat) (st : ItState),
    s.length - rl < gas → rl ≤ s.length → rl = p + u16Length ch → ItInv st p →
    revChain (itemizeLoop ⟨fuel, env, c, style, s⟩ gas ch p rl st) s.length = true ∧
    itemizeLoop ⟨fuel, env, c, style, s⟩ gas ch p rl st ≠ [] := by
  intro gas
  induction gas with
  | zero =>
    intro ch p rl st hg
    omega
  | succ g ih =>
    intro ch p rl st hg hle hlen hinv
    by_cases h : rl < s.length
    · have h' : rl < (ItArgs.mk fuel env c style s).s.length := h
      simp only [itemizeLoop, if_pos h']
      obtain ⟨hinv', _⟩ :=
        itemizeBody_inv ⟨fuel, env, c, style, s⟩ ch (u16Next s rl).1 p rl st hlen hinv
      apply ih
      · have h1 := u16Next_snd_gt s rl
        omega
      · exact u16Next_snd_le s rl h
      · exact (u16Next_len s rl hu h).symm
      · exact hinv'
    · have h' : ¬ rl < (ItArgs.mk fuel env c style s).s.length := h
      simp only [itemizeLoop, if_neg h']
      obtain ⟨⟨hchain', _, _⟩, hne'⟩ :=
        itemizeBody_inv ⟨fuel, env, c, style, s⟩ ch kEndOfString p rl st hlen hinv
      have hrl : rl = s.length := by omega
      rw [← hrl]
      exact ⟨hchain', hne'⟩

/-- Appending a final run to a forward chain. -/
theorem chainF_append_singleton :
    ∀ (l : List Run) (a b : Nat) (r : Run),
    chainF a (l ++ [r]) b = true ↔
      (chainF a l r.start = true ∧ r.start ≤ r.stop ∧ r.stop = b) := by
  intro l
  induction l with
  | nil =>
    intro a b r
    simp only [List.nil_append, chainF, Bool.and_eq_true, beq_iff_eq, decide_eq_true_eq]
    constructor
    · rintro ⟨⟨h1, h2⟩, h3⟩
      exact ⟨h1.symm, h2, h3⟩
    · rintro ⟨h1, h2, h3⟩
      exact ⟨⟨h1.symm, h2⟩, h3⟩
  | cons x l ih =>
    intro a b r
    have hstep : (x :: l) ++ [r] = x :: (l ++ [r]) := rfl
    rw [hstep]
    simp only [chainF, Bool.and_eq_true, beq_iff_eq, decide_eq_true_eq]
    rw [ih x.stop b r]
    tauto

/-- The newest-first chain of the loop is the forward chain of the reversed
output. -/
theorem revChain_iff_chainF :
    ∀ (l : List Run) (p : Nat), revChain l p = true ↔ chainF 0 l.reverse p = true := by
  intro l
  induction l with
  | nil =>
    intro p
    simp only [revChain, chainF, List.reverse_nil, beq_iff_eq]
    exact eq_comm
  | cons r rs ih =>
    intro p
    rw [List.reverse_cons]
    simp only [revChain, Bool.and_eq_true, beq_iff_eq, decide_eq_true_eq,
      chainF_append_singleton, ih]
    tauto

/-- A forward chain fixes the sum of run lengths. -/
theorem chainF_sum :
    ∀ (l : List Run) (a b : Nat), chainF a l b = true →
    a ≤ b ∧ runLengthSum l = b - a := by
  intro l
  induction l with
  | nil =>
    intro a b h
    simp only [chainF, beq_iff_eq] at h
    subst h
    simp [runLengthSum]
  | cons r rs ih =>
    intro a b h
    simp only [chainF, Bool.and_eq_true, beq_iff_eq, decide_eq_true_eq] at h
    obtain ⟨⟨h1, h2⟩, h3⟩ := h
    obtain ⟨h4, h5⟩ := ih r.stop b h3
    constructor
    · omega
    · simp only [runLengthSum, List.map_cons, List.sum_cons] at h5 ⊢
      omega

/-- C5: itemize on a non-empty string yields runs that are contiguous (each
start equals the previous end), each of non-negative extent, starting at 0
and ending at the input's UTF-16 code-unit length — hence the run lengths
sum to that length — and on empty input it yields zero runs. -/
theorem claim_C5 (fuel : Nat) (env : MinikinEnv) (c : FontCollection) (style : FontStyle)
    (s : List Nat) (hu : ∀ u ∈ s, u < 65536) :
    (s = [] → itemize fuel env c s style = []) ∧
    (s ≠ [] →
      chainF 0 (itemize fuel env c s style) s.length = true ∧
      itemize fuel env c s style ≠ [] ∧
      runLengthSum (itemize fuel env c s style) = s.length) := by
  constructor
  · intro h
    subst h
    rfl
  · intro hne
    have hlenpos : 0 < s.length := List.length_pos.mpr hne
    have hinit : ItInv { result := [], lastFamily := none, prevCh := 0 } 0 :=
      ⟨rfl, fun _ => rfl, trivial⟩
    obtain ⟨hchain, hne'⟩ := itemizeLoop_inv fuel env c style s hu s.length
      (u16Next s 0).1 0 (u16Next s 0).2 { result := [], lastFamily := none, prevCh := 0 }
      (by have := u16Next_snd_gt s 0; omega)
      (u16Next_snd_le s 0 hlenpos)
      ((u16Next_len s 0 hu hlenpos).symm)
      hinit
    have hres : itemize fuel env c s style =
        (itemizeLoop ⟨fuel, env, c, style, s⟩ s.length
          (u16Next s 0).1 0 (u16Next s 0).2
          { result := [], lastFamily := none, prevCh := 0 }).reverse := by
      unfold itemize
      rw [if_neg (by omega)]
    rw [hres]
    refine ⟨(revChain_iff_chainF _ _).mp hchain, ?_, ?_⟩
    · intro hrev
      exact hne' (List.reverse_eq_nil_iff.mp hrev)
    · have := (chainF_sum _ 0 s.length ((revChain_iff_chainF _ _).mp hchain)).2
      omega

/-- Witness for C5 on the concrete two-family collection and "AB". -/
theorem claim_C5_witness :
    chainF 0 (itemize 3 envW colW [0x41, 0x42] styleW) 2 = true ∧
    itemize 3 envW colW [0x41, 0x42] styleW ≠ [] ∧
    runLengthSum (itemize 3 envW colW [0x41, 0x42] styleW) = 2 :=
  (claim_C5 3 envW colW styleW [0x41, 0x42] (by decide)).2 (by decide)

/-! ## C6: the keycap-merge special case -/

/-- C6: during itemize, when the codepoint is the combining enclosing
keycap, it is not the first codepoint, the run is not simply continued, a
family is resolved that differs from the active one, and that family covers
the previous codepoint, then the just-closed run's end is retracted by the
UTF-16 length of the previous codepoint (the run being deleted when it
becomes empty) and the new run starts that much earlier, so the previous
character is attached to the keycap's run. -/
theorem claim_C6 (L : ItArgs) (ch nextCh p q : Nat) (st : ItState) (f : FontFamily)
    (r : Run) (rs : List Run)
    (hch : ch = KEYCAP)
    (hp : p ≠ 0)
    (hsc : itemizeShouldContinue st ch = false)
    (hfam : getFamilyForChar L.fuel L.env L.col ch
      (if isVariationSelector nextCh then nextCh else 0) L.style.langListId L.style.variant
      = some f)
    (hdiff : optFid (some f) ≠ optFid st.lastFamily)
    (hcov : f.cov.contains st.prevCh = true)
    (hres : st.result = r :: rs) :
    itemizeBody L ch nextCh p q st =
      { result :=
          { font := f.closestMatch L.style, start := p - u16Length st.prevCh, stop := q } ::
            (if r.start == r.stop - u16Length st.prevCh then rs
             else { r with stop := r.stop - u16Length st.prevCh } :: rs),
        lastFamily := some f, prevCh := ch } := by
  rw [itemizeBody_eq, if_neg (by rw [hsc]; exact Bool.false_ne_true)]
  rw [itemizeResolve_eq L ch nextCh p st (some f) hfam.symm]
  have hnr : (p == 0 || optFid (some f) != optFid st.lastFamily) = true := by
    rw [bne_iff_ne.mpr hdiff, Bool.or_true]
  rw [if_pos hnr]
  have hkc : keycapCond (some f) ch p st.prevCh = true := by
    unfold keycapCond
    subst hch
    dsimp only
    rw [hcov, bne_iff_ne.mpr hp]
    decide
  rw [if_pos hkc, hres]
  simp only [setHeadStop, retractKeycap, runFont]

/-- Witness for C6: itemizing keycap after '3' on colK retracts the '3' run
(deleting it) and opens the keycap run one code unit earlier. -/
theorem claim_C6_witness :
    itemizeBody ⟨1, envW, colK, styleW, [0x33, 0x20E3]⟩ 0x20E3 kEndOfString 1 2
      { result := [{ font := some 40, start := 0, stop := 1 }],
        lastFamily := some famD, prevCh := 0x33 } =
    { result := [{ font := some 41, start := 0, stop := 2 }],
      lastFamily := some famK, prevCh := 0x20E3 } := by
  have h := claim_C6 ⟨1, envW, colK, styleW, [0x33, 0x20E3]⟩ 0x20E3 kEndOfString 1 2
    { result := [{ font := some 40, start := 0, stop := 1 }],
      lastFamily := some famD, prevCh := 0x33 }
    famK { font := some 40, start := 0, stop := 1 } []
    rfl (by decide) (by decide) rfl (by decide) (by decide) rfl
  rw [h]
  rfl

/-! ## C7: variation-selector stickiness -/

/-- No sticky-whitelisted character is a variation selector. -/
theorem isSticky_false_of_isVS (c : Nat) (h : isVariationSelector c = true) :
    isStickyWhitelisted c = false := by
  have h' := of_decide_eq_true h
  by_contra hne
  have hs : isStickyWhitelisted c = true := by
    cases hc : isStickyWhitelisted c
    · exact absurd hc hne
    · rfl
  have hmem : c ∈ stickyWhitelist := by
    have : stickyWhitelist.elem c = true := hs
    exact List.elem_iff.mp this
  simp only [stickyWhitelist, NBSP, ZWJ, ZWNJ, KEYCAP, HYPHEN, NB_HYPHEN,
    List.mem_cons, List.not_mem_nil, or_false] at hmem
  omega

/-- C7 (amended): a variation selector always continues the current run and
never starts a new one — provided the active (last-resolved) family is
non-null; the body only extends the newest run's end and keeps the active
family. (As the counterexample shows, the original claim fails when a
preceding run exists but the active family is null: the selector is then
freshly resolved and can start a new run.) -/
theorem claim_C7 (L : ItArgs) (ch nextCh p q : Nat) (st : ItState) (lf : FontFamily)
    (hlf : st.lastFamily = some lf)
    (hvs : isVariationSelector ch = true) :
    itemizeBody L ch nextCh p q st =
      { result := setHeadStop st.result q, lastFamily := st.lastFamily, prevCh := ch } := by
  rw [itemizeBody_eq, if_pos]
  unfold itemizeShouldContinue
  rw [hlf]
  rw [isSticky_false_of_isVS ch hvs]
  simp [hvs]

/-- Witness for C7 (amended) on a state with an active family. -/
theorem claim_C7_witness :
    itemizeBody ⟨1, envW, colW, styleW, [0x41, 0xFE00]⟩ 0xFE00 kEndOfString 1 2
      { result := [{ font := some 10, start := 0, stop := 1 }],
        lastFamily := some famA, prevCh := 0x41 } =
    { result := setHeadStop [{ font := some 10, start := 0, stop := 1 }] 2,
      lastFamily := some famA, prevCh := 0xFE00 } := by
  have h := claim_C7 ⟨1, envW, colW, styleW, [0x41, 0xFE00]⟩ 0xFE00 kEndOfString 1 2
    { result := [{ font := some 10, start := 0, stop := 1 }],
      lastFamily := some famA, prevCh := 0x41 }
    famA rfl (by decide)
  rw [h]

set_option maxRecDepth 100000 in
/-- Counterexample to C7 as stated: on colV (one family covering only
VS16, mMaxChar = 0xFE10), the first codepoint 0xFFFF resolves to no family
and opens a null-font run; the following VS16 — a variation selector with a
preceding run — is freshly resolved (the active family being null), finds
the family covering it, and starts a new run at offset 1 instead of being
appended to the preceding run. -/
theorem claim_C7_counterexample :
    isVariationSelector 0xFE0F = true ∧
    itemize 3 envW colV [0xFFFF, 0xFE0F] styleW =
      [{ font := none, start := 0, stop := 1 }, { font := some 20, start := 1, stop := 2 }] :=
  ⟨rfl, rfl⟩

/-! ## C10: null-family runs -/

/-- C10: with a null active family, sticky continuation is disabled, so a
(non-variation-selector) codepoint is freshly resolved; when that
resolution finds no family, itemize still covers the code units — opening a
run with a null font handle at the first codepoint, extending the current
(null-font) run otherwise — and the active family stays null. -/
theorem claim_C10 (L : ItArgs) (ch nextCh p q : Nat) (st : ItState)
    (hlf : st.lastFamily = none)
    (hnvs : isVariationSelector ch = false)
    (hres : getFamilyForChar L.fuel L.env L.col ch
      (if isVariationSelector nextCh then nextCh else 0)
      L.style.langListId L.style.variant = none) :
    (itemizeBody L ch nextCh p q st =
      { result := setHeadStop (itemizeResolve L ch nextCh p st).result q,
        lastFamily := (itemizeResolve L ch nextCh p st).lastFamily, prevCh := ch }) ∧
    (p = 0 → (itemizeBody L ch nextCh p q st).result =
      { font := none, start := 0, stop := q } :: st.result) ∧
    (p ≠ 0 → (itemizeBody L ch nextCh p q st).result = setHeadStop st.result q) ∧
    (itemizeBody L ch nextCh p q st).lastFamily = none := by
  have hsc : itemizeShouldContinue st ch = false := by
    unfold itemizeShouldContinue
    rw [hlf]
  have hbody := itemizeBody_eq L ch nextCh p q st
  rw [if_neg (by rw [hsc]; exact Bool.false_ne_true)] at hbody
  have hresolve := itemizeResolve_eq L ch nextCh p st none hres.symm
  refine ⟨hbody, ?_, ?_, ?_⟩
  · intro hp0
    subst hp0
    rw [hbody]
    rw [hresolve, hlf]
    rw [if_pos (by rfl)]
    rw [if_neg (by unfold keycapCond; simp)]
    simp only [setHeadStop, runFont]
  · intro hp0
    rw [hbody]
    rw [hresolve, hlf]
    rw [if_neg (by simp [hp0])]
  · rw [hbody]
    rw [hresolve, hlf]
    by_cases hp0 : p = 0
    · subst hp0
      rw [if_pos (by rfl)]
      rw [if_neg (by unfold keycapCond; simp)]
    · rw [if_neg (by simp [hp0])]
      rw [hlf]

/-- Witness for C10 on colS after a null-font run: the uncovered codepoint
0x46 resolves to nothing and the null-font run is extended. -/
theorem claim_C10_witness :
    (itemizeBody ⟨3, envW, colS, styleW, [0xFFFF, 0x46]⟩ 0x46 kEndOfString 1 2
      { result := [{ font := none, start := 0, stop := 1 }],
        lastFamily := none, prevCh := 0xFFFF } =
      { result := setHeadStop (itemizeResolve ⟨3, envW, colS, styleW, [0xFFFF, 0x46]⟩
          0x46 kEndOfString 1
          { result := [{ font := none, start := 0, stop := 1 }],
            lastFamily := none, prevCh := 0xFFFF }).result 2,
        lastFamily := (itemizeResolve ⟨3, envW, colS, styleW, [0xFFFF, 0x46]⟩
          0x46 kEndOfString 1
          { result := [{ font := none, start := 0, stop := 1 }],
            lastFamily := none, prevCh := 0xFFFF }).lastFamily, prevCh := 0x46 }) ∧
    ((1 : Nat) = 0 → (itemizeBody ⟨3, envW, colS, styleW, [0xFFFF, 0x46]⟩ 0x46 kEndOfString 1 2
      { result := [{ font := none, start := 0, stop := 1 }],
        lastFamily := none, prevCh := 0xFFFF }).result =
      { font := none, start := 0, stop := 2 } :: [{ font := none, start := 0, stop := 1 }]) ∧
    ((1 : Nat) ≠ 0 → (itemizeBody ⟨3, envW, colS, styleW, [0xFFFF, 0x46]⟩ 0x46 kEndOfString 1 2
      { result := [{ font := none, start := 0, stop := 1 }],
        lastFamily := none, prevCh := 0xFFFF }).result =
      setHeadStop [{ font := none, start := 0, stop := 1 }] 2) ∧
    (itemizeBody ⟨3, envW, colS, styleW, [0xFFFF, 0x46]⟩ 0x46 kEndOfString 1 2
      { result := [{ font := none, start := 0, stop := 1 }],
        lastFamily := none, prevCh := 0xFFFF }).lastFamily = none :=
  claim_C10 ⟨3, envW, colS, styleW, [0xFFFF, 0x46]⟩ 0x46 kEndOfString 1 2
    { result := [{ font := none, start := 0, stop := 1 }],
      lastFamily := none, prevCh := 0xFFFF }
    rfl (by decide) rfl

end Minikin
